import Mathlib

/-!
Verification of the quality-annotation parser of `main_app.py`
(`parse_spelling_errors` and `categorize_quality_score`).

Annotation texts are modelled as `List Char`; the optional input of
`parse_spelling_errors` as `Option (List Char)` (`none` models a null /
NaN cell, `some []` the empty string).

`countOcc` models `len(re.findall(r'MARKER:', text))` for the literal
marker tokens: the left-to-right non-overlapping occurrence scan of the
regex engine.  `findAll` models `re.findall(r'([^;]+)\s*\(MARKER:[^)]+\)',
text)`: at each start position the engine matches a greedy nonempty run of
non-semicolon characters, backtracking so that the group ends exactly at
the last `(MARKER:` block reachable inside the run (the `\s*` part then
matches the empty string), then `[^)]+\)` consumes up to the first closing
parenthesis; on success scanning resumes after the match, on failure the
start position advances by one character.  Both are written with an
explicit fuel argument (initialised to the text length) so that they are
structurally recursive and evaluate by kernel reduction.
-/

namespace MainApp

/-- The code points Python `str.isspace()` holds for; `str.strip()` with no
argument strips exactly these from both ends. -/
def pythonWhitespace : List Nat :=
  [0x9, 0xa, 0xb, 0xc, 0xd, 0x1c, 0x1d, 0x1e, 0x1f, 0x20, 0x85, 0xa0, 0x1680,
   0x2000, 0x2001, 0x2002, 0x2003, 0x2004, 0x2005, 0x2006, 0x2007, 0x2008,
   0x2009, 0x200a, 0x2028, 0x2029, 0x202f, 0x205f, 0x3000]

/-- Python `str.isspace()` on a single character. -/
def isPySpace (c : Char) : Bool := pythonWhitespace.contains c.toNat

/-- Python `str.strip()`: drop whitespace from both ends. -/
def pyStrip (s : List Char) : List Char :=
  ((s.dropWhile isPySpace).reverse.dropWhile isPySpace).reverse

/-- Fueled left-to-right non-overlapping scan counting occurrences of the
literal pattern `M`, as `re.findall` does for a literal regex. -/
def countOccAux (M : List Char) : Nat → List Char → Nat
  | 0, _ => 0
  | _ + 1, [] => 0
  | fuel + 1, c :: cs =>
    if M.isPrefixOf (c :: cs) then 1 + countOccAux M fuel (cs.drop (M.length - 1))
    else countOccAux M fuel cs

/-- `len(re.findall(r'M', text))` for a literal pattern `M`. -/
def countOcc (M s : List Char) : Nat := countOccAux M s.length s

/-- Match of `\(M[^)]+\)` at the head of `u`: on success, return the text
after the closing parenthesis. -/
def blockAt (M : List Char) (u : List Char) : Option (List Char) :=
  match u with
  | [] => none
  | c :: r =>
    if c = '(' then
      if M.isPrefixOf r then
        if ((r.drop M.length).takeWhile (fun x => x != ')')).length = 0 then none
        else
          match (r.drop M.length).dropWhile (fun x => x != ')') with
          | [] => none
          | d :: tail => if d = ')' then some tail else none
      else none
    else none

/-- Backtracking search for the greedy split point of `([^;]+)\s*\(M[^)]+\)`:
try group lengths `k, k-1, ..., 1` and return the first (i.e. largest)
length whose residue starts with a `\(M[^)]+\)` block. -/
def findSplit (M s : List Char) : Nat → Option (Nat × List Char)
  | 0 => none
  | k + 1 =>
    match blockAt M (s.drop (k + 1)) with
    | some rest => some (k + 1, rest)
    | none => findSplit M s k

/-- Attempt of `([^;]+)\s*\(M[^)]+\)` anchored at the head of `s`:
returns the captured group and the text after the match. -/
def tryMatch (M s : List Char) : Option (List Char × List Char) :=
  match findSplit M s (s.takeWhile (fun c => c != ';')).length with
  | some kr => some (s.take kr.1, kr.2)
  | none => none

/-- Fueled scan of `re.findall(r'([^;]+)\s*\(M[^)]+\)', text)`: try a match
at each position, on success continue after the match, otherwise advance
one character. -/
def findAllAux (M : List Char) : Nat → List Char → List (List Char)
  | 0, _ => []
  | _ + 1, [] => []
  | fuel + 1, c :: cs =>
    match tryMatch M (c :: cs) with
    | some gr => gr.1 :: findAllAux M fuel gr.2
    | none => findAllAux M fuel cs

/-- `re.findall(r'([^;]+)\s*\(M[^)]+\)', text)` (list of captured groups). -/
def findAll (M s : List Char) : List (List Char) := findAllAux M s.length s

/-- Marker token of the `TYPOS` category. -/
def typosMarker : List Char := "TYPOS:".toList

/-- Marker token of the `PUNCTUATION` category. -/
def punctuationMarker : List Char := "PUNCTUATION:".toList

/-- Marker token of the `GRAMMAR` category. -/
def grammarMarker : List Char := "GRAMMAR:".toList

/-- Marker token of the `TYPOGRAPHY` category. -/
def typographyMarker : List Char := "TYPOGRAPHY:".toList

/-- Marker token of the `REDUNDANCY` category. -/
def redundancyMarker : List Char := "REDUNDANCY:".toList

/-- Marker token of the `CASING` category. -/
def casingMarker : List Char := "CASING:".toList

/-- Marker token of the `MISC` category. -/
def miscMarker : List Char := "MISC:".toList

/-- Marker token of the `REPETITIONS_STYLE` category. -/
def repetitionsMarker : List Char := "REPETITIONS_STYLE:".toList

/-- One entry of the `issue_details` list: `{'type': ..., 'text': ...}`. -/
structure IssueDetail where
  type : String
  text : List Char
deriving DecidableEq

/-- The `patterns` dict of the source, in its insertion (= iteration) order:
category name paired with the marker token of its extraction regex. -/
def patternList : List (String × List Char) :=
  [("TYPOS", typosMarker), ("PUNCTUATION", punctuationMarker),
   ("GRAMMAR", grammarMarker), ("TYPOGRAPHY", typographyMarker),
   ("REDUNDANCY", redundancyMarker), ("CASING", casingMarker),
   ("MISC", miscMarker), ("REPETITIONS_STYLE", repetitionsMarker)]

/-- One pass of the extraction loop body for a single category. -/
def detailsFor (name : String) (M : List Char) (s : List Char) : List IssueDetail :=
  (findAll M s).map (fun g => IssueDetail.mk name (pyStrip g))

/-- The `issue_details` accumulation loop over the `patterns` dict. -/
def issue_details_of (s : List Char) : List IssueDetail :=
  patternList.flatMap (fun p => detailsFor p.1 p.2 s)

/-- The dict returned by `parse_spelling_errors`. -/
structure QualityReport where
  total_issues : Nat
  typos : Nat
  punctuation : Nat
  grammar : Nat
  typography : Nat
  redundancy : Nat
  casing : Nat
  misc : Nat
  quality_score : Int
  issue_details : List IssueDetail
deriving DecidableEq

/-- The zeroed report returned on null/empty input. -/
def zeroReport : QualityReport :=
  { total_issues := 0, typos := 0, punctuation := 0, grammar := 0,
    typography := 0, redundancy := 0, casing := 0, misc := 0,
    quality_score := 100, issue_details := [] }

/-- The main branch of `parse_spelling_errors` on nonempty text. -/
def mainReport (error_text : List Char) : QualityReport :=
  { total_issues :=
      countOcc typosMarker error_text + countOcc punctuationMarker error_text +
      countOcc grammarMarker error_text + countOcc typographyMarker error_text +
      countOcc redundancyMarker error_text + countOcc casingMarker error_text +
      countOcc miscMarker error_text + countOcc repetitionsMarker error_text,
    typos := countOcc typosMarker error_text,
    punctuation := countOcc punctuationMarker error_text,
    grammar := countOcc grammarMarker error_text,
    typography := countOcc typographyMarker error_text,
    redundancy := countOcc redundancyMarker error_text,
    casing := countOcc casingMarker error_text,
    misc := countOcc miscMarker error_text + countOcc repetitionsMarker error_text,
    quality_score :=
      max 0 (min 100 ((100 : Int) -
        (countOcc typosMarker error_text : Int) * 5 -
        (countOcc grammarMarker error_text : Int) * 4 -
        (countOcc punctuationMarker error_text : Int) * 2 -
        (countOcc typographyMarker error_text : Int) * 1 -
        (countOcc redundancyMarker error_text : Int) * 2 -
        (countOcc casingMarker error_text : Int) * 2 -
        (countOcc miscMarker error_text : Int) * 3 -
        (countOcc repetitionsMarker error_text : Int) * 2)),
    issue_details := issue_details_of error_text }

/-- `parse_spelling_errors` of `main_app.py`. -/
def parse_spelling_errors (spelling_text : Option (List Char)) : QualityReport :=
  match spelling_text with
  | none => zeroReport
  | some error_text =>
    if error_text = [] then zeroReport else mainReport error_text

/-- `categorize_quality_score` of `main_app.py`. -/
def categorize_quality_score (score : Int) : String :=
  if score ≥ 90 then "Excellent"
  else if score ≥ 75 then "Good"
  else if score ≥ 60 then "Fair"
  else if score ≥ 40 then "Poor"
  else "Very Poor"

/-- Occurrence of the pattern `M` at position `i` of `s`. -/
def occursAt (M s : List Char) (i : Nat) : Bool := M.isPrefixOf (s.drop i)

/-- Modelled from the spec: the number of positions of the text at which the
marker token appears as a substring ("count the number of times its fixed
marker token appears anywhere in the text").  Used as the specification-side
count compared with the source-side scan `countOcc`. -/
def substringOccurrences (M s : List Char) : Nat :=
  (List.range s.length).countP (occursAt M s)

/-- `M` has no nontrivial border: no proper nonempty suffix of `M` is also
one of its prefixes.  All eight marker tokens satisfy this. -/
def noBorderB (M : List Char) : Bool :=
  (List.range M.length).all (fun j => decide (j = 0) || !((M.drop j).isPrefixOf M))

/-- Decomposition witnessing that a captured group `g` of the extraction
regex for marker `M` is a nonempty run of non-semicolon characters standing
immediately before a well-formed parenthesized marker block inside `s`. -/
def matchDecomp (M s g : List Char) : Prop :=
  g ≠ [] ∧ (∀ c ∈ g, (c != ';') = true) ∧
    ∃ a inner tail, s = a ++ g ++ '(' :: (M ++ (inner ++ ')' :: tail)) ∧
      inner ≠ [] ∧ (∀ c ∈ inner, (c != ')') = true)

/-- Modelled from the spec: "the run of non-semicolon characters immediately
preceding" position `i` of `s`, i.e. the maximal suffix of `s.take i` made of
non-semicolon characters.  Used only to state the claim-side (maximal-run)
reading of the excerpt rule, which the program does not satisfy. -/
def runEndingAt (s : List Char) (i : Nat) : List Char :=
  ((s.take i).reverse.takeWhile (fun c => c != ';')).reverse

/-! ### Basic facts about `List.isPrefixOf` on characters -/

theorem isPrefixOf_iff : ∀ (M s : List Char), M.isPrefixOf s = true ↔ ∃ t, M ++ t = s
  | [], s => by simp [List.isPrefixOf]
  | a :: as, [] => by simp [List.isPrefixOf]
  | a :: as, b :: bs => by
    simp only [List.isPrefixOf, Bool.and_eq_true, beq_iff_eq]
    constructor
    · rintro ⟨rfl, h⟩
      obtain ⟨t, ht⟩ := (isPrefixOf_iff as bs).1 h
      exact ⟨t, by simp [ht]⟩
    · rintro ⟨t, ht⟩
      injection ht with h1 h2
      exact ⟨h1, (isPrefixOf_iff as bs).2 ⟨t, h2⟩⟩

theorem length_le_of_isPrefixOf {M s : List Char} (h : M.isPrefixOf s = true) :
    M.length ≤ s.length := by
  obtain ⟨t, rfl⟩ := (isPrefixOf_iff M s).1 h
  simp

theorem isPrefixOf_append_left {M s : List Char} (t : List Char)
    (h : M.isPrefixOf s = true) : M.isPrefixOf (s ++ t) = true := by
  obtain ⟨u, rfl⟩ := (isPrefixOf_iff M s).1 h
  exact (isPrefixOf_iff _ _).2 ⟨u ++ t, by simp⟩

theorem isPrefixOf_of_append {M s t : List Char} (h : M.isPrefixOf (s ++ t) = true)
    (hle : M.length ≤ s.length) : M.isPrefixOf s = true := by
  obtain ⟨u, hu⟩ := (isPrefixOf_iff M (s ++ t)).1 h
  have h1 : M = (s ++ t).take M.length := by
    have := congrArg (List.take M.length) hu
    simpa [List.take_append_of_le_length (le_refl M.length)] using this
  have h2 : M = s.take M.length := by
    conv_lhs => rw [h1]
    rw [List.take_append_of_le_length hle]
  have h3 := List.take_append_drop M.length s
  rw [← h2] at h3
  exact (isPrefixOf_iff M s).2 ⟨s.drop M.length, h3⟩

/-! ### Facts about the `countOcc` scan -/

theorem countOccAux_congr (M : List Char) :
    ∀ (f₁ : Nat), ∀ (f₂ : Nat) (s : List Char), s.length ≤ f₁ → s.length ≤ f₂ →
      countOccAux M f₁ s = countOccAux M f₂ s := by
  intro f₁
  induction f₁ with
  | zero =>
    intro f₂ s h1 _
    have : s = [] := List.length_eq_zero.1 (Nat.le_zero.1 h1)
    subst this
    cases f₂ <;> rfl
  | succ n ih =>
    intro f₂ s h1 h2
    cases s with
    | nil => cases f₂ <;> rfl
    | cons c cs =>
      cases f₂ with
      | zero => exact absurd h2 (by simp)
      | succ m =>
        simp only [countOccAux]
        by_cases hp : M.isPrefixOf (c :: cs) = true
        · rw [if_pos hp, if_pos hp]
          have hlen : (cs.drop (M.length - 1)).length ≤ cs.length := by
            rw [List.length_drop]; omega
          have hcs : cs.length ≤ n := by simpa using Nat.lt_succ_iff.mp (Nat.lt_of_lt_of_le (by simp) h1)
          have hcs' : cs.length ≤ m := by simpa using Nat.lt_succ_iff.mp (Nat.lt_of_lt_of_le (by simp) h2)
          exact congrArg (fun x => 1 + x) (ih m _ (le_trans hlen hcs) (le_trans hlen hcs'))
        · rw [if_neg hp, if_neg hp]
          have hcs : cs.length ≤ n := by
            have := h1; simp only [List.length_cons] at this; omega
          have hcs' : cs.length ≤ m := by
            have := h2; simp only [List.length_cons] at this; omega
          exact ih m cs hcs hcs'

theorem countOcc_nil (M : List Char) : countOcc M [] = 0 := rfl

theorem countOcc_cons (M : List Char) (c : Char) (cs : List Char) :
    countOcc M (c :: cs) =
      if M.isPrefixOf (c :: cs) then 1 + countOcc M (cs.drop (M.length - 1))
      else countOcc M cs := by
  show countOccAux M (cs.length + 1) (c :: cs) = _
  simp only [countOccAux]
  by_cases hp : M.isPrefixOf (c :: cs) = true
  · rw [if_pos hp, if_pos hp, countOccAux_congr M cs.length _ _ (by rw [List.length_drop]; omega) (le_refl _)]
    rfl
  · rw [if_neg hp, if_neg hp]
    rfl

theorem countOcc_short {M s : List Char} (h : s.length < M.length) : countOcc M s = 0 := by
  induction s with
  | nil => rfl
  | cons c cs ih =>
    rw [countOcc_cons]
    have hp : ¬ M.isPrefixOf (c :: cs) = true := fun hp =>
      absurd (length_le_of_isPrefixOf hp) (by omega)
    rw [if_neg hp]
    exact ih (by simp at h ⊢; omega)

theorem countOcc_append_le (M : List Char) :
    ∀ (n : Nat) (s t : List Char), s.length ≤ n → countOcc M s ≤ countOcc M (s ++ t) := by
  intro n
  induction n with
  | zero =>
    intro s t h
    have : s = [] := List.length_eq_zero.1 (Nat.le_zero.1 h)
    subst this
    simp [countOcc_nil]
  | succ n ih =>
    intro s t h
    cases s with
    | nil => simp [countOcc_nil]
    | cons c cs =>
      rw [List.cons_append, countOcc_cons, countOcc_cons]
      by_cases hp : M.isPrefixOf (c :: cs) = true
      · have hp' : M.isPrefixOf (c :: (cs ++ t)) = true := by
          have := isPrefixOf_append_left t hp
          simpa using this
        rw [if_pos hp, if_pos hp']
        have hML : M.length ≤ cs.length + 1 := by
          have := length_le_of_isPrefixOf hp; simpa using this
        have hdrop : (cs ++ t).drop (M.length - 1) = cs.drop (M.length - 1) ++ t :=
          List.drop_append_of_le_length (by omega)
        rw [hdrop]
        have hlen : (cs.drop (M.length - 1)).length ≤ n := by
          rw [List.length_drop]
          simp only [List.length_cons] at h
          omega
        exact Nat.add_le_add_left (ih _ t hlen) 1
      · rw [if_neg hp]
        by_cases hp' : M.isPrefixOf (c :: (cs ++ t)) = true
        · rw [if_pos hp']
          have hshort : (c :: cs).length < M.length := by
            by_contra hc
            push_neg at hc
            exact hp (isPrefixOf_of_append (by simpa using hp') (by simpa using hc))
          have : countOcc M cs = 0 := countOcc_short (by simp at hshort ⊢; omega)
          omega
        · rw [if_neg hp']
          exact ih cs t (by simp only [List.length_cons] at h; omega)

theorem countOcc_pos_of_occursAt (M : List Char) (hM : M ≠ []) :
    ∀ (n : Nat) (s : List Char), s.length ≤ n → ∀ i, M.isPrefixOf (s.drop i) = true →
      0 < countOcc M s := by
  intro n
  induction n with
  | zero =>
    intro s h i hp
    have : s = [] := List.length_eq_zero.1 (Nat.le_zero.1 h)
    subst this
    obtain ⟨t, ht⟩ := (isPrefixOf_iff _ _).1 hp
    simp only [List.drop_nil] at ht
    exact absurd (List.append_eq_nil.1 ht).1 hM
  | succ n ih =>
    intro s h i hp
    cases s with
    | nil =>
      obtain ⟨t, ht⟩ := (isPrefixOf_iff _ _).1 hp
      simp only [List.drop_nil] at ht
      exact absurd (List.append_eq_nil.1 ht).1 hM
    | cons c cs =>
      rw [countOcc_cons]
      by_cases hph : M.isPrefixOf (c :: cs) = true
      · rw [if_pos hph]; omega
      · rw [if_neg hph]
        cases i with
        | zero => exact absurd (by simpa using hp) hph
        | succ j =>
          rw [List.drop_succ_cons] at hp
          exact ih cs (by simp only [List.length_cons] at h; omega) j hp

theorem countOcc_zero_no_occurrence {M s : List Char} (hM : M ≠ [])
    (h : countOcc M s = 0) : ∀ i, M.isPrefixOf (s.drop i) = false := by
  intro i
  by_contra hc
  have hp : M.isPrefixOf (s.drop i) = true := by
    cases hb : M.isPrefixOf (s.drop i) with
    | false => exact absurd hb hc
    | true => rfl
  have := countOcc_pos_of_occursAt M hM s.length s (le_refl _) i hp
  omega

/-! ### The scan count agrees with the position count for border-free patterns -/

theorem substringOccurrences_nil (M : List Char) : substringOccurrences M [] = 0 := rfl

theorem substringOccurrences_cons (M : List Char) (c : Char) (cs : List Char) :
    substringOccurrences M (c :: cs) =
      (if M.isPrefixOf (c :: cs) then 1 else 0) + substringOccurrences M cs := by
  unfold substringOccurrences
  rw [List.length_cons, List.range_succ_eq_map, List.countP_cons, List.countP_map]
  have h0 : occursAt M (c :: cs) 0 = M.isPrefixOf (c :: cs) := rfl
  rw [h0]
  have hc : List.countP (occursAt M (c :: cs) ∘ Nat.succ) (List.range cs.length)
      = List.countP (occursAt M cs) (List.range cs.length) :=
    List.countP_congr (fun x _ => Iff.rfl)
  by_cases hp : M.isPrefixOf (c :: cs) = true
  · rw [if_pos hp]; omega
  · rw [if_neg hp]; omega

theorem substringOccurrences_drop (M : List Char) :
    ∀ (k : Nat) (s : List Char), k ≤ s.length → (∀ j, j < k → occursAt M s j = false) →
      substringOccurrences M s = substringOccurrences M (s.drop k) := by
  intro k
  induction k with
  | zero => intro s _ _; rfl
  | succ n ih =>
    intro s hk hj
    cases s with
    | nil => simp at hk
    | cons c cs =>
      have h0 : M.isPrefixOf (c :: cs) = false := hj 0 (Nat.succ_pos n)
      rw [substringOccurrences_cons, h0, List.drop_succ_cons]
      simp only [Bool.false_eq_true, if_false, Nat.zero_add]
      exact ih cs (by simp only [List.length_cons] at hk; omega)
        (fun j hjn => hj (j + 1) (by omega))

theorem no_occurrence_of_overlap {M s : List Char} (hB : noBorderB M = true)
    (hp : M.isPrefixOf s = true) :
    ∀ j, 0 < j → j < M.length → M.isPrefixOf (s.drop j) = false := by
  intro j hj0 hjM
  by_contra hc
  have hpj : M.isPrefixOf (s.drop j) = true := by
    cases hb : M.isPrefixOf (s.drop j) with
    | false => exact absurd hb hc
    | true => rfl
  obtain ⟨r, hr⟩ := (isPrefixOf_iff M s).1 hp
  have hdrop : s.drop j = M.drop j ++ r := by
    rw [← hr, List.drop_append_of_le_length (le_of_lt hjM)]
  rw [hdrop] at hpj
  obtain ⟨u, hu⟩ := (isPrefixOf_iff _ _).1 hpj
  have hlen : (M.drop j).length = M.length - j := List.length_drop _ _
  have h1 : List.take (M.length - j) M = M.drop j := by
    have h2 := congrArg (List.take (M.length - j)) hu
    rw [List.take_append_of_le_length (by omega : M.length - j ≤ M.length),
      List.take_append_of_le_length (le_of_eq hlen.symm)] at h2
    rw [h2, ← hlen, List.take_length]
  have hpfx : (M.drop j).isPrefixOf M = true :=
    (isPrefixOf_iff _ _).2 ⟨M.drop (M.length - j), by rw [← h1]; exact List.take_append_drop _ M⟩
  have hall := List.all_eq_true.1 hB j (List.mem_range.2 hjM)
  simp only [Bool.or_eq_true, Bool.not_eq_true', decide_eq_true_eq] at hall
  rcases hall with h | h
  · omega
  · rw [hpfx] at h; cases h

theorem countOcc_eq_substringOccurrencesAux {M : List Char} (hB : noBorderB M = true)
    (hM : M ≠ []) : ∀ (n : Nat) (s : List Char), s.length ≤ n →
      countOcc M s = substringOccurrences M s := by
  intro n
  induction n with
  | zero =>
    intro s h
    have : s = [] := List.length_eq_zero.1 (Nat.le_zero.1 h)
    subst this; rfl
  | succ n ih =>
    intro s h
    cases s with
    | nil => rfl
    | cons c cs =>
      rw [countOcc_cons, substringOccurrences_cons]
      by_cases hp : M.isPrefixOf (c :: cs) = true
      · rw [if_pos hp, if_pos hp]
        have hML : 1 ≤ M.length := by
          cases M with
          | nil => exact absurd rfl hM
          | cons a as => simp
        have hnone : ∀ j, j < M.length - 1 → occursAt M cs j = false := by
          intro j hj
          have hno := no_occurrence_of_overlap hB hp (j + 1) (Nat.succ_pos j) (by omega)
          simpa [occursAt] using hno
        rw [ih (cs.drop (M.length - 1))
          (by rw [List.length_drop]; simp only [List.length_cons] at h; omega)]
        rw [← substringOccurrences_drop M (M.length - 1) cs
          (by have := length_le_of_isPrefixOf hp; simp only [List.length_cons] at this; omega)
          hnone]
      · rw [if_neg hp, if_neg hp]
        rw [ih cs (by simp only [List.length_cons] at h; omega)]
        omega

theorem countOcc_eq_substringOccurrences {M : List Char} (hB : noBorderB M = true)
    (hM : M ≠ []) (s : List Char) : countOcc M s = substringOccurrences M s :=
  countOcc_eq_substringOccurrencesAux hB hM s.length s (le_refl _)

/-! ### Structure of the extraction-regex matches -/

theorem takeWhile_length_le (p : Char → Bool) (s : List Char) :
    (s.takeWhile p).length ≤ s.length := by
  conv_rhs => rw [← List.takeWhile_append_dropWhile p s]
  rw [List.length_append]
  omega

theorem blockAt_eq {M u tail : List Char} (h : blockAt M u = some tail) :
    ∃ inner, u = '(' :: (M ++ (inner ++ ')' :: tail)) ∧ inner ≠ [] ∧
      (∀ c ∈ inner, (c != ')') = true) := by
  cases u with
  | nil => exact absurd h (by simp [blockAt])
  | cons c r =>
    simp only [blockAt] at h
    by_cases hc : c = '('
    · rw [if_pos hc] at h
      by_cases hpre : M.isPrefixOf r = true
      · rw [if_pos hpre] at h
        by_cases hz : ((r.drop M.length).takeWhile (fun x => x != ')')).length = 0
        · rw [if_pos hz] at h; cases h
        · rw [if_neg hz] at h
          cases hd : (r.drop M.length).dropWhile (fun x => x != ')') with
          | nil => rw [hd] at h; cases h
          | cons d tl =>
            rw [hd] at h
            have h' : (if d = ')' then some tl else none) = some tail := h
            by_cases hdp : d = ')'
            · rw [if_pos hdp] at h'
              injection h' with htail
              obtain ⟨t, ht⟩ := (isPrefixOf_iff M r).1 hpre
              have hdropr : r.drop M.length = t := by
                rw [← ht, List.drop_append_of_le_length (le_refl M.length),
                  List.drop_length, List.nil_append]
              rw [hdropr] at hd hz
              have hsplit := List.takeWhile_append_dropWhile (fun x => x != ')') t
              rw [hd, hdp, htail] at hsplit
              refine ⟨t.takeWhile (fun x => x != ')'), ?_, ?_, ?_⟩
              · rw [hc, ← ht, hsplit]
              · intro hnil
                rw [hnil] at hz
                exact hz rfl
              · intro x hx
                rw [← hdropr] at hx
                exact @List.mem_takeWhile_imp Char (fun y => y != ')') _ x hx
            · rw [if_neg hdp] at h'; cases h'
      · rw [if_neg hpre] at h; cases h
    · rw [if_neg hc] at h; cases h

theorem findSplit_eq {M s : List Char} :
    ∀ (k : Nat) {j : Nat} {rest : List Char}, findSplit M s k = some (j, rest) →
      1 ≤ j ∧ j ≤ k ∧ blockAt M (s.drop j) = some rest := by
  intro k
  induction k with
  | zero => intro j rest h; exact absurd h (by simp [findSplit])
  | succ n ih =>
    intro j rest h
    simp only [findSplit] at h
    cases hb : blockAt M (s.drop (n + 1)) with
    | some r0 =>
      rw [hb] at h
      simp only [Option.some.injEq, Prod.mk.injEq] at h
      obtain ⟨rfl, rfl⟩ := h
      exact ⟨by omega, le_refl _, hb⟩
    | none =>
      rw [hb] at h
      obtain ⟨h1, h2, h3⟩ := ih h
      exact ⟨h1, by omega, h3⟩

theorem tryMatch_eq {M s g rest : List Char} (h : tryMatch M s = some (g, rest)) :
    ∃ j, 1 ≤ j ∧ j ≤ (s.takeWhile (fun c => c != ';')).length ∧ g = s.take j ∧
      blockAt M (s.drop j) = some rest := by
  unfold tryMatch at h
  cases hf : findSplit M s (s.takeWhile (fun c => c != ';')).length with
  | none => rw [hf] at h; cases h
  | some kr =>
    rw [hf] at h
    simp only [Option.some.injEq, Prod.mk.injEq] at h
    obtain ⟨hg, hr⟩ := h
    have hkr : findSplit M s (s.takeWhile (fun c => c != ';')).length =
        some (kr.1, kr.2) := by rw [hf]
    obtain ⟨h1, h2, h3⟩ := findSplit_eq _ hkr
    exact ⟨kr.1, h1, h2, hg.symm, by rw [hr] at h3; exact h3⟩

theorem tryMatch_group {M s g rest : List Char} (h : tryMatch M s = some (g, rest)) :
    g ≠ [] ∧ ∀ c ∈ g, (c != ';') = true := by
  obtain ⟨j, hj1, hj2, hg, _⟩ := tryMatch_eq h
  have hrun : (s.takeWhile (fun c => c != ';')).length ≤ s.length :=
    takeWhile_length_le _ s
  constructor
  · subst hg
    intro hnil
    have hlen := congrArg List.length hnil
    rw [List.length_take] at hlen
    simp only [List.length_nil] at hlen
    omega
  · intro c hc
    subst hg
    have h1 : s.take j = (s.takeWhile (fun x => x != ';')).take j := by
      conv_lhs => rw [← List.takeWhile_append_dropWhile (fun x => x != ';') s]
      rw [List.take_append_of_le_length hj2]
    rw [h1] at hc
    have hsub : List.take j (List.takeWhile (fun x => x != ';') s) ⊆
        List.takeWhile (fun x => x != ';') s := List.take_subset _ _
    exact @List.mem_takeWhile_imp Char (fun x => x != ';') _ c (hsub hc)

theorem tryMatch_rest_lt {M s g rest : List Char} (h : tryMatch M s = some (g, rest)) :
    rest.length < s.length := by
  obtain ⟨j, hj1, hj2, hg, hb⟩ := tryMatch_eq h
  obtain ⟨inner, hdec, _, _⟩ := blockAt_eq hb
  have hrun : (s.takeWhile (fun c => c != ';')).length ≤ s.length :=
    takeWhile_length_le _ s
  have hlen := congrArg List.length hdec
  rw [List.length_drop] at hlen
  simp only [List.length_cons, List.length_append] at hlen
  omega

theorem findAllAux_congr (M : List Char) :
    ∀ (f₁ : Nat), ∀ (f₂ : Nat) (s : List Char), s.length ≤ f₁ → s.length ≤ f₂ →
      findAllAux M f₁ s = findAllAux M f₂ s := by
  intro f₁
  induction f₁ with
  | zero =>
    intro f₂ s h1 _
    have : s = [] := List.length_eq_zero.1 (Nat.le_zero.1 h1)
    subst this
    cases f₂ <;> rfl
  | succ n ih =>
    intro f₂ s h1 h2
    cases s with
    | nil => cases f₂ <;> rfl
    | cons c cs =>
      cases f₂ with
      | zero => exact absurd h2 (by simp)
      | succ m =>
        simp only [findAllAux]
        cases htm : tryMatch M (c :: cs) with
        | some gr =>
          have hlt : gr.2.length < cs.length + 1 := by
            have htm' : tryMatch M (c :: cs) = some (gr.1, gr.2) := by rw [htm]
            have := tryMatch_rest_lt htm'
            simpa using this
          simp only [List.length_cons] at h1 h2
          exact congrArg (gr.1 :: ·) (ih m gr.2 (by omega) (by omega))
        | none =>
          simp only [List.length_cons] at h1 h2
          exact ih m cs (by omega) (by omega)

theorem findAll_nil (M : List Char) : findAll M [] = [] := rfl

theorem findAll_cons_some {M : List Char} {c : Char} {cs g rest : List Char}
    (h : tryMatch M (c :: cs) = some (g, rest)) :
    findAll M (c :: cs) = g :: findAll M rest := by
  show findAllAux M (cs.length + 1) (c :: cs) = _
  simp only [findAllAux, h]
  have hlt : rest.length < cs.length + 1 := by
    have := tryMatch_rest_lt h; simpa using this
  exact congrArg (g :: ·)
    (findAllAux_congr M cs.length rest.length rest (by omega) (le_refl _))

theorem findAll_cons_none {M : List Char} {c : Char} {cs : List Char}
    (h : tryMatch M (c :: cs) = none) :
    findAll M (c :: cs) = findAll M cs := by
  show findAllAux M (cs.length + 1) (c :: cs) = _
  simp only [findAllAux, h]
  exact findAllAux_congr M cs.length cs.length cs (le_refl _) (le_refl _)

theorem matchDecomp_lift {M u g : List Char} (pre : List Char) (h : matchDecomp M u g) :
    matchDecomp M (pre ++ u) g := by
  obtain ⟨hne, hsemi, a, inner, tail, hdec, hin, hinp⟩ := h
  exact ⟨hne, hsemi, pre ++ a, inner, tail, by rw [hdec]; simp [List.append_assoc], hin, hinp⟩

theorem findAll_decomp (M : List Char) :
    ∀ (n : Nat) (s : List Char), s.length ≤ n → ∀ g ∈ findAll M s, matchDecomp M s g := by
  intro n
  induction n with
  | zero =>
    intro s h g hg
    have : s = [] := List.length_eq_zero.1 (Nat.le_zero.1 h)
    subst this
    exact absurd hg (by simp [findAll_nil])
  | succ n ih =>
    intro s h g hg
    cases s with
    | nil => exact absurd hg (by simp [findAll_nil])
    | cons c cs =>
      cases htm : tryMatch M (c :: cs) with
      | none =>
        rw [findAll_cons_none htm] at hg
        have hcs : cs.length ≤ n := by simp only [List.length_cons] at h; omega
        have := ih cs hcs g hg
        exact matchDecomp_lift [c] this
      | some gr =>
        have htm' : tryMatch M (c :: cs) = some (gr.1, gr.2) := by rw [htm]
        rw [findAll_cons_some htm'] at hg
        obtain ⟨j, hj1, hj2, hgeq, hb⟩ := tryMatch_eq htm'
        obtain ⟨inner, hdec, hin, hinp⟩ := blockAt_eq hb
        rcases List.mem_cons.1 hg with rfl | hg'
        · obtain ⟨hne, hsemi⟩ := tryMatch_group htm'
          refine ⟨hne, hsemi, [], inner, gr.2, ?_, hin, hinp⟩
          rw [List.nil_append, hgeq]
          conv_lhs => rw [← List.take_append_drop j (c :: cs)]
          rw [hdec]
        · have hrl : gr.2.length ≤ n := by
            have := tryMatch_rest_lt htm'
            simp only [List.length_cons] at h this
            omega
          have hrec := ih gr.2 hrl g hg'
          have hs : c :: cs = (gr.1 ++ '(' :: (M ++ (inner ++ [')']))) ++ gr.2 := by
            conv_lhs => rw [← List.take_append_drop j (c :: cs)]
            rw [hdec, ← hgeq]
            simp [List.append_assoc]
          rw [hs]
          exact matchDecomp_lift _ hrec

theorem findAll_eq_nil_of_no_occurrence (M : List Char) :
    ∀ (n : Nat) (s : List Char), s.length ≤ n →
      (∀ i, M.isPrefixOf (s.drop i) = false) → findAll M s = [] := by
  intro n
  induction n with
  | zero =>
    intro s h _
    have : s = [] := List.length_eq_zero.1 (Nat.le_zero.1 h)
    subst this
    rfl
  | succ n ih =>
    intro s h hno
    cases s with
    | nil => rfl
    | cons c cs =>
      cases htm : tryMatch M (c :: cs) with
      | some gr =>
        exfalso
        have htm' : tryMatch M (c :: cs) = some (gr.1, gr.2) := by rw [htm]
        obtain ⟨j, hj1, hj2, hgeq, hb⟩ := tryMatch_eq htm'
        obtain ⟨inner, hdec, hin, hinp⟩ := blockAt_eq hb
        have hocc : M.isPrefixOf ((c :: cs).drop (j + 1)) = true := by
          have h1 : (c :: cs).drop (j + 1) = ((c :: cs).drop j).drop 1 := by
            rw [List.drop_drop]
          rw [h1, hdec]
          exact (isPrefixOf_iff _ _).2 ⟨inner ++ ')' :: gr.2, rfl⟩
        rw [hno (j + 1)] at hocc
        cases hocc
      | none =>
        rw [findAll_cons_none htm]
        exact ih cs (by simp only [List.length_cons] at h; omega)
          (fun i => by have := hno (i + 1); simpa using this)

theorem findAll_eq_nil_of_countOcc_zero {M s : List Char} (hM : M ≠ [])
    (h : countOcc M s = 0) : findAll M s = [] :=
  findAll_eq_nil_of_no_occurrence M s.length s (le_refl _)
    (countOcc_zero_no_occurrence hM h)

/-! ### Clamping and branch-selection helpers -/

theorem clamp_nonneg (x : Int) : 0 ≤ max 0 (min 100 x) := le_max_left 0 _

theorem clamp_le (x : Int) : max 0 (min 100 x) ≤ 100 :=
  max_le (by norm_num) (min_le_left _ _)

theorem clamp_mono {x y : Int} (h : x ≤ y) : max 0 (min 100 x) ≤ max 0 (min 100 y) :=
  max_le_max (le_refl 0) (min_le_min (le_refl 100) h)

theorem parse_none_eq : parse_spelling_errors none = zeroReport := rfl

theorem parse_nil_eq : parse_spelling_errors (some []) = zeroReport := rfl

theorem parse_some_ne {s : List Char} (h : s ≠ []) :
    parse_spelling_errors (some s) = mainReport s := by
  simp [parse_spelling_errors, h]

/-! ### The claims -/

/-- C1: for every text the quality score equals 100 minus the weighted sum of
per-category marker counts (Typo 5, Grammar 4, Miscellaneous 3, Punctuation 2,
Redundancy 2, Casing 2, pre-fold RepetitionStyle 2, Typography 1) clamped to
`[0, 100]`, and for every input whatsoever the score lies in `[0, 100]`. -/
theorem quality_score_eq_clamped_weighted :
    (∀ s : List Char, (parse_spelling_errors (some s)).quality_score =
      max 0 (min 100 ((100 : Int) -
        (countOcc typosMarker s : Int) * 5 - (countOcc grammarMarker s : Int) * 4 -
        (countOcc punctuationMarker s : Int) * 2 - (countOcc typographyMarker s : Int) * 1 -
        (countOcc redundancyMarker s : Int) * 2 - (countOcc casingMarker s : Int) * 2 -
        (countOcc miscMarker s : Int) * 3 - (countOcc repetitionsMarker s : Int) * 2))) ∧
    (∀ t : Option (List Char), 0 ≤ (parse_spelling_errors t).quality_score ∧
      (parse_spelling_errors t).quality_score ≤ 100) := by
  constructor
  · intro s
    by_cases hs : s = []
    · subst hs
      rw [parse_nil_eq]
      decide
    · rw [parse_some_ne hs]
      rfl
  · intro t
    match t with
    | none => exact ⟨by decide, by decide⟩
    | some s =>
      by_cases hs : s = []
      · subst hs
        rw [parse_nil_eq]
        exact ⟨by decide, by decide⟩
      · rw [parse_some_ne hs]
        exact ⟨clamp_nonneg _, clamp_le _⟩

/-- C3: `categorize_quality_score` is the pure top-down inclusive threshold
function (≥90 Excellent, ≥75 Good, ≥60 Fair, ≥40 Poor, else Very Poor), with
the stated boundary values 89/90, 74/75, 59/60, 39/40. -/
theorem categorize_thresholds :
    (∀ z : Int,
      (90 ≤ z → categorize_quality_score z = "Excellent") ∧
      (75 ≤ z → z < 90 → categorize_quality_score z = "Good") ∧
      (60 ≤ z → z < 75 → categorize_quality_score z = "Fair") ∧
      (40 ≤ z → z < 60 → categorize_quality_score z = "Poor") ∧
      (z < 40 → categorize_quality_score z = "Very Poor")) ∧
    (categorize_quality_score 89 = "Good" ∧ categorize_quality_score 90 = "Excellent" ∧
     categorize_quality_score 74 = "Fair" ∧ categorize_quality_score 75 = "Good" ∧
     categorize_quality_score 59 = "Poor" ∧ categorize_quality_score 60 = "Fair" ∧
     categorize_quality_score 39 = "Very Poor" ∧ categorize_quality_score 40 = "Poor") := by
  constructor
  · intro z
    refine ⟨?_, ?_, ?_, ?_, ?_⟩ <;>
      · intros
        unfold categorize_quality_score
        split_ifs <;> first | rfl | omega
  · decide

/-- C3 witness: the threshold theorem applied at score 95. -/
theorem categorize_thresholds_witness : categorize_quality_score 95 = "Excellent" :=
  (categorize_thresholds.1 95).1 (by decide)

/-- C5: the parser is deterministic and stateless: equal inputs give equal
reports (it is modelled as a pure function of its argument alone). -/
theorem parse_deterministic :
    ∀ t₁ t₂ : Option (List Char), t₁ = t₂ →
      parse_spelling_errors t₁ = parse_spelling_errors t₂ :=
  fun _ _ h => congrArg parse_spelling_errors h

/-- C5 witness: determinism at a concrete input. -/
theorem parse_deterministic_witness :
    parse_spelling_errors (some ("teh cat".toList)) =
      parse_spelling_errors (some ("teh cat".toList)) :=
  parse_deterministic _ _ rfl

/-- C9: the misc field of the report is the pre-fold MISC count plus the
REPETITIONS_STYLE count, and the seven reported per-category counts sum to
`total_issues` (also on the zeroed branch). -/
theorem fold_preserves_total :
    ∀ s : List Char,
      ((parse_spelling_errors (some s)).typos + (parse_spelling_errors (some s)).punctuation +
       (parse_spelling_errors (some s)).grammar + (parse_spelling_errors (some s)).typography +
       (parse_spelling_errors (some s)).redundancy + (parse_spelling_errors (some s)).casing +
       (parse_spelling_errors (some s)).misc = (parse_spelling_errors (some s)).total_issues) ∧
      ((parse_spelling_errors (some s)).misc =
        countOcc miscMarker s + countOcc repetitionsMarker s) ∧
      ((parse_spelling_errors none).typos + (parse_spelling_errors none).punctuation +
       (parse_spelling_errors none).grammar + (parse_spelling_errors none).typography +
       (parse_spelling_errors none).redundancy + (parse_spelling_errors none).casing +
       (parse_spelling_errors none).misc = (parse_spelling_errors none).total_issues) := by
  intro s
  by_cases hs : s = []
  · subst hs
    rw [parse_nil_eq, parse_none_eq]
    exact ⟨rfl, rfl, rfl⟩
  · rw [parse_some_ne hs, parse_none_eq]
    refine ⟨?_, rfl, rfl⟩
    simp only [mainReport]
    omega

/-- C10: `categorize_quality_score` is total on all integers: every score maps
to one of the five bands, any score above 100 to Excellent and any negative
score to Very Poor. -/
theorem categorize_total :
    ∀ z : Int,
      (categorize_quality_score z = "Excellent" ∨ categorize_quality_score z = "Good" ∨
       categorize_quality_score z = "Fair" ∨ categorize_quality_score z = "Poor" ∨
       categorize_quality_score z = "Very Poor") ∧
      (100 < z → categorize_quality_score z = "Excellent") ∧
      (z < 0 → categorize_quality_score z = "Very Poor") := by
  intro z
  refine ⟨?_, ?_, ?_⟩
  · unfold categorize_quality_score
    split_ifs <;> simp
  · intro h
    unfold categorize_quality_score
    split_ifs <;> first | rfl | omega
  · intro h
    unfold categorize_quality_score
    split_ifs <;> first | rfl | omega

/-- C10 witness: totality theorem applied above 100 and below 0. -/
theorem categorize_total_witness :
    categorize_quality_score 150 = "Excellent" ∧
      categorize_quality_score (-5) = "Very Poor" :=
  ⟨(categorize_total 150).2.1 (by decide), (categorize_total (-5)).2.2 (by decide)⟩

/-- C2: null and empty input both yield the zeroed report (all counts 0,
totalIssues 0, score 100, derived category Excellent, no occurrences), and any
text in which no marker token occurs yields the identical output. -/
theorem empty_input_zeroed :
    parse_spelling_errors none = zeroReport ∧
    parse_spelling_errors (some []) = zeroReport ∧
    categorize_quality_score (parse_spelling_errors none).quality_score = "Excellent" ∧
    ∀ s : List Char,
      countOcc typosMarker s = 0 → countOcc punctuationMarker s = 0 →
      countOcc grammarMarker s = 0 → countOcc typographyMarker s = 0 →
      countOcc redundancyMarker s = 0 → countOcc casingMarker s = 0 →
      countOcc miscMarker s = 0 → countOcc repetitionsMarker s = 0 →
      parse_spelling_errors (some s) = parse_spelling_errors none := by
  refine ⟨rfl, rfl, by decide, ?_⟩
  intro s h1 h2 h3 h4 h5 h6 h7 h8
  by_cases hs : s = []
  · subst hs; rfl
  · rw [parse_some_ne hs, parse_none_eq]
    have d1 : findAll typosMarker s = [] := findAll_eq_nil_of_countOcc_zero (by decide) h1
    have d2 : findAll punctuationMarker s = [] :=
      findAll_eq_nil_of_countOcc_zero (by decide) h2
    have d3 : findAll grammarMarker s = [] := findAll_eq_nil_of_countOcc_zero (by decide) h3
    have d4 : findAll typographyMarker s = [] :=
      findAll_eq_nil_of_countOcc_zero (by decide) h4
    have d5 : findAll redundancyMarker s = [] :=
      findAll_eq_nil_of_countOcc_zero (by decide) h5
    have d6 : findAll casingMarker s = [] := findAll_eq_nil_of_countOcc_zero (by decide) h6
    have d7 : findAll miscMarker s = [] := findAll_eq_nil_of_countOcc_zero (by decide) h7
    have d8 : findAll repetitionsMarker s = [] :=
      findAll_eq_nil_of_countOcc_zero (by decide) h8
    have hd : issue_details_of s = [] := by
      simp [issue_details_of, patternList, detailsFor, d1, d2, d3, d4, d5, d6, d7, d8]
    unfold mainReport zeroReport
    rw [h1, h2, h3, h4, h5, h6, h7, h8, hd]
    norm_num

/-- C2 witness: a markerless text parses to the same report as null input. -/
theorem empty_input_zeroed_witness :
    parse_spelling_errors (some ("all good here".toList)) = parse_spelling_errors none :=
  empty_input_zeroed.2.2.2 ("all good here".toList) (by decide) (by decide) (by decide)
    (by decide) (by decide) (by decide) (by decide) (by decide)

/-- C4: on nonempty text every reported per-category count is the number of
positions at which the category's marker token occurs as a substring of the
text (with the misc field holding MISC plus folded REPETITIONS_STYLE), and
`total_issues` is the sum of all eight pre-fold counts. -/
theorem counts_eq_substring_occurrences :
    ∀ s : List Char, s ≠ [] →
      (parse_spelling_errors (some s)).typos = substringOccurrences typosMarker s ∧
      (parse_spelling_errors (some s)).punctuation =
        substringOccurrences punctuationMarker s ∧
      (parse_spelling_errors (some s)).grammar = substringOccurrences grammarMarker s ∧
      (parse_spelling_errors (some s)).typography =
        substringOccurrences typographyMarker s ∧
      (parse_spelling_errors (some s)).redundancy =
        substringOccurrences redundancyMarker s ∧
      (parse_spelling_errors (some s)).casing = substringOccurrences casingMarker s ∧
      (parse_spelling_errors (some s)).misc =
        substringOccurrences miscMarker s + substringOccurrences repetitionsMarker s ∧
      (parse_spelling_errors (some s)).total_issues =
        substringOccurrences typosMarker s + substringOccurrences punctuationMarker s +
        substringOccurrences grammarMarker s + substringOccurrences typographyMarker s +
        substringOccurrences redundancyMarker s + substringOccurrences casingMarker s +
        substringOccurrences miscMarker s + substringOccurrences repetitionsMarker s := by
  intro s hs
  rw [parse_some_ne hs]
  have e1 := @countOcc_eq_substringOccurrences typosMarker (by decide) (by decide) s
  have e2 := @countOcc_eq_substringOccurrences punctuationMarker
    (by decide) (by decide) s
  have e3 := @countOcc_eq_substringOccurrences grammarMarker (by decide) (by decide) s
  have e4 := @countOcc_eq_substringOccurrences typographyMarker
    (by decide) (by decide) s
  have e5 := @countOcc_eq_substringOccurrences redundancyMarker
    (by decide) (by decide) s
  have e6 := @countOcc_eq_substringOccurrences casingMarker (by decide) (by decide) s
  have e7 := @countOcc_eq_substringOccurrences miscMarker (by decide) (by decide) s
  have e8 := @countOcc_eq_substringOccurrences repetitionsMarker
    (by decide) (by decide) s
  simp only [mainReport]
  rw [e1, e2, e3, e4, e5, e6, e7, e8]
  exact ⟨rfl, rfl, rfl, rfl, rfl, rfl, rfl, rfl⟩

/-- C4 witness: the count characterization at a concrete annotation. -/
theorem counts_eq_substring_occurrences_witness :
    (parse_spelling_errors (some ("teh cat (TYPOS:spelling)".toList))).typos =
      substringOccurrences typosMarker ("teh cat (TYPOS:spelling)".toList) :=
  (counts_eq_substring_occurrences ("teh cat (TYPOS:spelling)".toList) (by decide)).1

/-- C6: appending one further well-formed `"foo (TYPOS:bar)"` marker block to
any annotation string never increases the score and never decreases
`total_issues`. -/
theorem append_marker_monotone :
    ∀ s : List Char,
      (parse_spelling_errors (some (s ++ "foo (TYPOS:bar)".toList))).quality_score ≤
        (parse_spelling_errors (some s)).quality_score ∧
      (parse_spelling_errors (some s)).total_issues ≤
        (parse_spelling_errors (some (s ++ "foo (TYPOS:bar)".toList))).total_issues := by
  intro s
  have hne : s ++ "foo (TYPOS:bar)".toList ≠ [] := by simp
  rw [parse_some_ne hne]
  by_cases hs : s = []
  · subst hs
    rw [parse_nil_eq]
    constructor
    · exact le_trans (clamp_le _) (by decide)
    · exact Nat.zero_le _
  · rw [parse_some_ne hs]
    have c1 := countOcc_append_le typosMarker s.length s ("foo (TYPOS:bar)".toList)
      (le_refl _)
    have c2 := countOcc_append_le punctuationMarker s.length s ("foo (TYPOS:bar)".toList)
      (le_refl _)
    have c3 := countOcc_append_le grammarMarker s.length s ("foo (TYPOS:bar)".toList)
      (le_refl _)
    have c4 := countOcc_append_le typographyMarker s.length s ("foo (TYPOS:bar)".toList)
      (le_refl _)
    have c5 := countOcc_append_le redundancyMarker s.length s ("foo (TYPOS:bar)".toList)
      (le_refl _)
    have c6 := countOcc_append_le casingMarker s.length s ("foo (TYPOS:bar)".toList)
      (le_refl _)
    have c7 := countOcc_append_le miscMarker s.length s ("foo (TYPOS:bar)".toList)
      (le_refl _)
    have c8 := countOcc_append_le repetitionsMarker s.length s ("foo (TYPOS:bar)".toList)
      (le_refl _)
    constructor
    · simp only [mainReport]
      apply clamp_mono
      omega
    · simp only [mainReport]
      omega

/-- C7: the three concrete scenarios: the two-marker example scores 91 and is
Excellent; any text with exactly 5 TYPOS and 3 GRAMMAR markers (others zero)
scores 63 and is Fair; any text with 30 TYPOS markers (others zero) clamps to
score 0 and is Very Poor. -/
theorem concrete_scenarios :
    ((parse_spelling_errors (some
        ("teh cat (TYPOS:spelling); bad grammer (GRAMMAR:agreement)".toList))).typos = 1 ∧
     (parse_spelling_errors (some
        ("teh cat (TYPOS:spelling); bad grammer (GRAMMAR:agreement)".toList))).grammar = 1 ∧
     (parse_spelling_errors (some
        ("teh cat (TYPOS:spelling); bad grammer (GRAMMAR:agreement)".toList))).total_issues
        = 2 ∧
     (parse_spelling_errors (some
        ("teh cat (TYPOS:spelling); bad grammer (GRAMMAR:agreement)".toList))).quality_score
        = 91 ∧
     categorize_quality_score (parse_spelling_errors (some
        ("teh cat (TYPOS:spelling); bad grammer (GRAMMAR:agreement)".toList))).quality_score
        = "Excellent") ∧
    (∀ s : List Char, countOcc typosMarker s = 5 → countOcc grammarMarker s = 3 →
      countOcc punctuationMarker s = 0 → countOcc typographyMarker s = 0 →
      countOcc redundancyMarker s = 0 → countOcc casingMarker s = 0 →
      countOcc miscMarker s = 0 → countOcc repetitionsMarker s = 0 →
      (parse_spelling_errors (some s)).quality_score = 63 ∧
      categorize_quality_score (parse_spelling_errors (some s)).quality_score = "Fair") ∧
    (∀ s : List Char, countOcc typosMarker s = 30 → countOcc grammarMarker s = 0 →
      countOcc punctuationMarker s = 0 → countOcc typographyMarker s = 0 →
      countOcc redundancyMarker s = 0 → countOcc casingMarker s = 0 →
      countOcc miscMarker s = 0 → countOcc repetitionsMarker s = 0 →
      (parse_spelling_errors (some s)).quality_score = 0 ∧
      categorize_quality_score (parse_spelling_errors (some s)).quality_score
        = "Very Poor") := by
  refine ⟨by decide, ?_, ?_⟩
  · intro s h1 h2 h3 h4 h5 h6 h7 h8
    have hs : s ≠ [] := by
      intro h
      subst h
      rw [countOcc_nil] at h1
      exact absurd h1 (by decide)
    rw [parse_some_ne hs]
    simp only [mainReport]
    rw [h1, h2, h3, h4, h5, h6, h7, h8]
    exact ⟨by decide, by decide⟩
  · intro s h1 h2 h3 h4 h5 h6 h7 h8
    have hs : s ≠ [] := by
      intro h
      subst h
      rw [countOcc_nil] at h1
      exact absurd h1 (by decide)
    rw [parse_some_ne hs]
    simp only [mainReport]
    rw [h1, h2, h3, h4, h5, h6, h7, h8]
    exact ⟨by decide, by decide⟩

set_option maxRecDepth 100000 in
/-- C7 witness: the 5-TYPOS/3-GRAMMAR and 30-TYPOS scenarios at concrete
annotation strings. -/
theorem concrete_scenarios_witness :
    (parse_spelling_errors (some
      ("TYPOS:TYPOS:TYPOS:TYPOS:TYPOS:GRAMMAR:GRAMMAR:GRAMMAR:".toList))).quality_score
      = 63 ∧
    (parse_spelling_errors (some
      (("TYPOS:TYPOS:TYPOS:TYPOS:TYPOS:TYPOS:TYPOS:TYPOS:TYPOS:TYPOS:" ++
        "TYPOS:TYPOS:TYPOS:TYPOS:TYPOS:TYPOS:TYPOS:TYPOS:TYPOS:TYPOS:" ++
        "TYPOS:TYPOS:TYPOS:TYPOS:TYPOS:TYPOS:TYPOS:TYPOS:TYPOS:TYPOS:").toList))).quality_score
      = 0 :=
  ⟨(concrete_scenarios.2.1 ("TYPOS:TYPOS:TYPOS:TYPOS:TYPOS:GRAMMAR:GRAMMAR:GRAMMAR:".toList)
      (by decide) (by decide) (by decide) (by decide) (by decide) (by decide) (by decide)
      (by decide)).1,
   (concrete_scenarios.2.2
      (("TYPOS:TYPOS:TYPOS:TYPOS:TYPOS:TYPOS:TYPOS:TYPOS:TYPOS:TYPOS:" ++
        "TYPOS:TYPOS:TYPOS:TYPOS:TYPOS:TYPOS:TYPOS:TYPOS:TYPOS:TYPOS:" ++
        "TYPOS:TYPOS:TYPOS:TYPOS:TYPOS:TYPOS:TYPOS:TYPOS:TYPOS:TYPOS:").toList)
      (by decide) (by decide) (by decide) (by decide) (by decide) (by decide) (by decide)
      (by decide)).1⟩

/-- C8 (amended): the occurrence list is the concatenation of the eight
per-category extraction passes in the fixed order TYPOS, PUNCTUATION, GRAMMAR,
TYPOGRAPHY, REDUNDANCY, CASING, MISC, REPETITIONS_STYLE (category-block order,
not document order), and every entry's excerpt is a whitespace-trimmed
nonempty run of non-semicolon characters standing immediately before a
well-formed parenthesized marker block of its category in the text — the run
the engine scans from its current position, which need not be the maximal
such run when an earlier match of the same pass ended inside the segment. -/
theorem occurrences_structure :
    ∀ s : List Char,
      (issue_details_of s =
        detailsFor "TYPOS" typosMarker s ++ detailsFor "PUNCTUATION" punctuationMarker s ++
        detailsFor "GRAMMAR" grammarMarker s ++ detailsFor "TYPOGRAPHY" typographyMarker s ++
        detailsFor "REDUNDANCY" redundancyMarker s ++ detailsFor "CASING" casingMarker s ++
        detailsFor "MISC" miscMarker s ++
        detailsFor "REPETITIONS_STYLE" repetitionsMarker s) ∧
      ∀ d ∈ issue_details_of s, ∃ M g, (d.type, M) ∈ patternList ∧ d.text = pyStrip g ∧
        matchDecomp M s g := by
  intro s
  constructor
  · simp [issue_details_of, patternList, detailsFor, List.append_assoc]
  · intro d hd
    simp only [issue_details_of, List.mem_flatMap] at hd
    obtain ⟨p, hp, hdp⟩ := hd
    simp only [detailsFor, List.mem_map] at hdp
    obtain ⟨g, hg, rfl⟩ := hdp
    refine ⟨p.2, g, ?_, rfl, ?_⟩
    · simpa using hp
    · exact findAll_decomp p.2 s.length s (le_refl _) g hg

/-- C8 witness: the structure theorem applied to a concrete annotation and
its extracted occurrence. -/
theorem occurrences_structure_witness :
    ∃ M g, ((IssueDetail.mk "TYPOS" ("teh cat".toList)).type, M) ∈ patternList ∧
      (IssueDetail.mk "TYPOS" ("teh cat".toList)).text = pyStrip g ∧
      matchDecomp M ("teh cat (TYPOS:spelling)".toList) g :=
  (occurrences_structure ("teh cat (TYPOS:spelling)".toList)).2
    (IssueDetail.mk "TYPOS" ("teh cat".toList)) (by decide)

theorem blockAt_none_of_le_length {M s : List Char} {i : Nat} (h : s.length ≤ i) :
    blockAt M (s.drop i) = none := by
  rw [List.drop_eq_nil_of_le h]
  rfl

/-- C8 counterexample: on `"aa(TYPOS:x;)bb(TYPOS:y)"` the program records the
excerpt `"bb"`, but no position carrying a well-formed TYPOS block has `"bb"`
as the trim of THE (maximal) run of non-semicolon characters immediately
preceding it: the run before the second block is `")bb"` (the first match of
the pass consumed through the semicolon inside its block interior), so the
claim's maximal-run reading of the excerpt rule is false of the code. -/
theorem occurrences_the_run_counterexample :
    (IssueDetail.mk "TYPOS" ("bb".toList)) ∈
      issue_details_of ("aa(TYPOS:x;)bb(TYPOS:y)".toList) ∧
    ¬ ∃ i, blockAt typosMarker (("aa(TYPOS:x;)bb(TYPOS:y)".toList).drop i) ≠ none ∧
        ("bb".toList : List Char) =
          pyStrip (runEndingAt ("aa(TYPOS:x;)bb(TYPOS:y)".toList) i) := by
  constructor
  · decide
  · rintro ⟨i, hb, ht⟩
    have hlen : i < ("aa(TYPOS:x;)bb(TYPOS:y)".toList).length := by
      by_contra hge
      push_neg at hge
      exact hb (blockAt_none_of_le_length hge)
    have hall : ∀ j ∈ List.range ("aa(TYPOS:x;)bb(TYPOS:y)".toList).length,
        ¬ (blockAt typosMarker (("aa(TYPOS:x;)bb(TYPOS:y)".toList).drop j) ≠ none ∧
          ("bb".toList : List Char) =
            pyStrip (runEndingAt ("aa(TYPOS:x;)bb(TYPOS:y)".toList) j)) := by decide
    exact hall i (List.mem_range.2 hlen) ⟨hb, ht⟩

end MainApp
